import Mathlib

/-!
Verification of the LCS engine of `src/src/lcs_algorithms.py`.

Strings are embedded as `List Char`. Each of the four strategies
(`lcs_brute_force`, `lcs_recursive`, `lcs_memoized`, `lcs_bottom_up`) and the
shared primitive `_is_subsequence` is translated below; the imperative loops
become recursion on the loop counters, and the memoization dictionary becomes
an explicitly threaded association list.
-/

/-- Embedding of `_is_subsequence(sub, main_str)`: a two-pointer scan. The
cursor into `main_str` advances on every step, the cursor into `sub` advances
exactly on a match, and the test succeeds iff all of `sub` was consumed
(`i == len(sub)`). Consuming the lists from the front is the same scan with
the pointers made implicit. -/
def is_subsequence : List Char → List Char → Bool
  | [], _ => true
  | _ :: _, [] => false
  | a :: sub, b :: rest =>
    if a = b then is_subsequence sub rest else is_subsequence (a :: sub) rest

/-- The candidate subsequence of `X` selected by bitmask `i` in
`lcs_brute_force`: character `X[j]` is kept when `(i >> j) & 1` is set, in
increasing order of `j`. Peeling the head of `X` tests bit 0 (`i % 2`) and
continues with `i / 2`, which is the same bit scan. -/
def maskSubseq : List Char → Nat → List Char
  | [], _ => []
  | c :: rest, i =>
    if i % 2 = 1 then c :: maskSubseq rest (i / 2) else maskSubseq rest (i / 2)

/-- The body of the brute-force loop: keep the candidate if it is a
subsequence of `Y` and strictly longer than the best so far. -/
def bruteStep (Y best cand : List Char) : List Char :=
  if is_subsequence cand Y then
    (if cand.length > best.length then cand else best)
  else best

/-- Embedding of `lcs_brute_force(X, Y)`: fold the loop body over the masks
`0, 1, ..., 2^m - 1` in increasing order, starting from the empty best. -/
def lcs_brute_force (X Y : List Char) : List Char :=
  (List.range (2 ^ X.length)).foldl (fun best i => bruteStep Y best (maskSubseq X i)) []

/-- Embedding of `lcs_recursive(X, Y)`: case split on the last characters;
`X[:-1]` is `X.dropLast` and `X[m-1]` is `X.getLastD` (the default is never
read, both branches are guarded by nonemptiness). On a mismatch, `lcs1` drops
the last character of `Y`, `lcs2` the last character of `X`, and ties keep
`lcs1` (`len(lcs1) >= len(lcs2)`). -/
def lcs_recursive (X Y : List Char) : List Char :=
  if h : X.length = 0 ∨ Y.length = 0 then []
  else if X.getLastD 'A' = Y.getLastD 'A' then
    lcs_recursive X.dropLast Y.dropLast ++ [X.getLastD 'A']
  else
    let lcs1 := lcs_recursive X Y.dropLast
    let lcs2 := lcs_recursive X.dropLast Y
    if lcs1.length ≥ lcs2.length then lcs1 else lcs2
termination_by X.length + Y.length
decreasing_by
  all_goals simp only [List.length_dropLast]; omega

/-- The memoization dictionary of `lcs_memoized`, keyed by the index pair
`(i, j)`; insertion conses in front, so `List.lookup` sees the latest
binding, matching the lookup semantics of the Python dict. -/
abbrev Memo := List ((Nat × Nat) × List Char)

/-- Embedding of the inner `_lcs_memo(i, j)` of `lcs_memoized`, with the
mutable dict threaded through as explicit state. A cache hit returns at once;
the base cases `i = 0` or `j = 0` return `""` without touching the cache; the
two recursive branches mirror `lcs_recursive` (`lcs1` computed first, from
`(i, j-1)`; ties keep `lcs1`) and the result is stored before returning. -/
def lcsMemo (X Y : List Char) (i j : Nat) (memo : Memo) : List Char × Memo :=
  match memo.lookup (i, j) with
  | some v => (v, memo)
  | none =>
    if h : i = 0 ∨ j = 0 then ([], memo)
    else if X.getD (i - 1) 'A' = Y.getD (j - 1) 'A' then
      let r := lcsMemo X Y (i - 1) (j - 1) memo
      let result := r.1 ++ [X.getD (i - 1) 'A']
      (result, ((i, j), result) :: r.2)
    else
      let r1 := lcsMemo X Y i (j - 1) memo
      let r2 := lcsMemo X Y (i - 1) j r1.2
      let result := if r1.1.length ≥ r2.1.length then r1.1 else r2.1
      (result, ((i, j), result) :: r2.2)
termination_by i + j
decreasing_by
  all_goals omega

/-- Embedding of `lcs_memoized(X, Y)`: run `_lcs_memo(len(X), len(Y))` with an
empty cache and return the string. -/
def lcs_memoized (X Y : List Char) : List Char :=
  (lcsMemo X Y X.length Y.length []).1

/-- The length table `c` built by phase 1 of `lcs_bottom_up`. The nested
loops assign each cell exactly once from already-final cells, so the finished
table is the unique solution of this recurrence; the zero-initialised row 0
and column 0 are the base case. -/
def lcsTable (X Y : List Char) (i j : Nat) : Nat :=
  if h : i = 0 ∨ j = 0 then 0
  else if X.getD (i - 1) 'A' = Y.getD (j - 1) 'A' then
    lcsTable X Y (i - 1) (j - 1) + 1
  else max (lcsTable X Y (i - 1) j) (lcsTable X Y i (j - 1))
termination_by i + j
decreasing_by
  all_goals omega

/-- Embedding of the phase-2 `while i > 0 and j > 0` backtracking loop of
`lcs_bottom_up`, with the accumulated string `lcs_str` as an argument
(characters are prepended, as in `lcs_str = X[i-1] + lcs_str`). -/
def backtrackLCS (X Y : List Char) (i j : Nat) (acc : List Char) : List Char :=
  if h : i = 0 ∨ j = 0 then acc
  else if X.getD (i - 1) 'A' = Y.getD (j - 1) 'A' then
    backtrackLCS X Y (i - 1) (j - 1) (X.getD (i - 1) 'A' :: acc)
  else if lcsTable X Y (i - 1) j > lcsTable X Y i (j - 1) then
    backtrackLCS X Y (i - 1) j acc
  else backtrackLCS X Y i (j - 1) acc
termination_by i + j
decreasing_by
  all_goals omega

/-- Embedding of `lcs_bottom_up(X, Y)`: build the table and backtrack from
`(m, n)` with an empty accumulator. -/
def lcs_bottom_up (X Y : List Char) : List Char :=
  backtrackLCS X Y X.length Y.length []

/-- Ghost function: the same recurrence as `lcs_recursive`, but consuming the
two lists from the front; `lcs_recursive` is this function run on the
reversed inputs (proved below). The tie-break mirrors the source: `l1` skips
a character of the second list and wins ties. -/
def lcsR : List Char → List Char → List Char
  | [], _ => []
  | _ :: _, [] => []
  | a :: A, b :: B =>
    if a = b then a :: lcsR A B
    else
      let l1 := lcsR (a :: A) B
      let l2 := lcsR A (b :: B)
      if l1.length ≥ l2.length then l1 else l2
termination_by A B => A.length + B.length
decreasing_by
  all_goals simp only [List.length_cons]; omega

/-- Ghost function: the cache-free recursion underlying `_lcs_memo`, on index
pairs. -/
def lcsIdx (X Y : List Char) (i j : Nat) : List Char :=
  if h : i = 0 ∨ j = 0 then []
  else if X.getD (i - 1) 'A' = Y.getD (j - 1) 'A' then
    lcsIdx X Y (i - 1) (j - 1) ++ [X.getD (i - 1) 'A']
  else
    let l1 := lcsIdx X Y i (j - 1)
    let l2 := lcsIdx X Y (i - 1) j
    if l1.length ≥ l2.length then l1 else l2
termination_by i + j
decreasing_by
  all_goals omega

/-- Spec-side notion (from the spec's words): `S` is a common subsequence of
`A` and `B`, characters in the same relative order, not necessarily
contiguous — that is, `List.Sublist`. -/
def CommonSubseq (S A B : List Char) : Prop := S.Sublist A ∧ S.Sublist B

/-- Spec-side notion: `L` is the true LCS length of `A` and `B` — some common
subsequence attains it and no common subsequence exceeds it. -/
def IsLCSLength (A B : List Char) (L : Nat) : Prop :=
  (∃ R, CommonSubseq R A B ∧ R.length = L) ∧
    ∀ S, CommonSubseq S A B → S.length ≤ L

open List

/-! ### The two-pointer subsequence test decides `List.Sublist` -/

theorem is_subsequence_iff : ∀ (main sub : List Char),
    is_subsequence sub main = true ↔ sub <+ main := by
  intro main
  induction main with
  | nil =>
    intro sub
    cases sub <;> simp [is_subsequence]
  | cons b rest ih =>
    intro sub
    cases sub with
    | nil => simp [is_subsequence]
    | cons a sub =>
      by_cases hab : a = b
      · subst hab
        simp [is_subsequence, ih, List.cons_sublist_cons]
      · simp only [is_subsequence, if_neg hab, ih]
        constructor
        · intro h
          exact h.cons b
        · intro h
          rcases List.sublist_cons_iff.mp h with h | ⟨r, hr, _⟩
          · exact h
          · injection hr with h1 _
            exact absurd h1 hab

/-! ### Brute force: mask candidates and the selection fold -/

theorem maskSubseq_sublist : ∀ (X : List Char) (i : Nat), maskSubseq X i <+ X := by
  intro X
  induction X with
  | nil =>
    intro i
    simp [maskSubseq]
  | cons c rest ih =>
    intro i
    simp only [maskSubseq]
    split
    · exact List.cons_sublist_cons.mpr (ih (i / 2))
    · exact (ih (i / 2)).cons c

/-- Every sublist of `X` is produced by some bitmask below `2 ^ |X|`. -/
theorem sublist_eq_maskSubseq {X S : List Char} (h : S <+ X) :
    ∃ i, i < 2 ^ X.length ∧ maskSubseq X i = S := by
  induction h with
  | slnil =>
    exact ⟨0, by simp, rfl⟩
  | cons c h ih =>
    obtain ⟨i, hlt, hmask⟩ := ih
    refine ⟨2 * i, ?_, ?_⟩
    · simpa [List.length_cons, pow_succ] using by omega
    · have h2 : (2 * i) % 2 = 0 := by omega
      have h3 : (2 * i) / 2 = i := by omega
      simp [maskSubseq, h2, h3, hmask]
  | cons₂ c h ih =>
    obtain ⟨i, hlt, hmask⟩ := ih
    refine ⟨2 * i + 1, ?_, ?_⟩
    · simpa [List.length_cons, pow_succ] using by omega
    · have h2 : (2 * i + 1) % 2 = 1 := by omega
      have h3 : (2 * i + 1) / 2 = i := by omega
      simp [maskSubseq, h2, h3, hmask]

theorem bruteStep_length_le (Y best cand : List Char) :
    best.length ≤ (bruteStep Y best cand).length := by
  unfold bruteStep
  split <;> [skip; exact le_refl _]
  split <;> omega

theorem bruteStep_cand_le (Y best cand : List Char)
    (h : is_subsequence cand Y = true) :
    cand.length ≤ (bruteStep Y best cand).length := by
  unfold bruteStep
  rw [if_pos h]
  split <;> omega

/-- The running best only grows along the fold. -/
theorem bruteFold_init_le (X Y : List Char) :
    ∀ (l : List Nat) (init : List Char),
      init.length ≤ (l.foldl (fun best i => bruteStep Y best (maskSubseq X i)) init).length := by
  intro l
  induction l with
  | nil =>
    intro init
    simp
  | cons a l ih =>
    intro init
    exact le_trans (bruteStep_length_le Y init (maskSubseq X a)) (ih _)

/-- Every passing candidate in the scanned mask list is no longer than the
final best. -/
theorem bruteFold_cand_le (X Y : List Char) :
    ∀ (l : List Nat) (init : List Char) (j : Nat), j ∈ l →
      is_subsequence (maskSubseq X j) Y = true →
      (maskSubseq X j).length ≤
        (l.foldl (fun best i => bruteStep Y best (maskSubseq X i)) init).length := by
  intro l
  induction l with
  | nil =>
    intro init j hj
    simp at hj
  | cons a l ih =>
    intro init j hj hpass
    rcases List.mem_cons.mp hj with rfl | hj
    · exact le_trans (bruteStep_cand_le Y init _ hpass) (bruteFold_init_le X Y l _)
    · exact ih _ j hj hpass

theorem maskSubseq_zero : ∀ (X : List Char), maskSubseq X 0 = [] := by
  intro X
  induction X with
  | nil => rfl
  | cons c rest ih => simpa [maskSubseq] using ih

/-- Full characterization of the selection fold: either no candidate ever
replaced the initial best (and every passing candidate is bounded by it), or
the final best is the first candidate of maximal length among the scanned
masks — strictly longer than every passing candidate scanned before it. -/
theorem bruteFold_first_max (X Y : List Char) :
    ∀ (l : List Nat) (init : List Char),
      (l.foldl (fun best i => bruteStep Y best (maskSubseq X i)) init = init ∧
        ∀ j ∈ l, is_subsequence (maskSubseq X j) Y = true →
          (maskSubseq X j).length ≤ init.length) ∨
      (∃ pre i post, l = pre ++ i :: post ∧
        l.foldl (fun best i => bruteStep Y best (maskSubseq X i)) init = maskSubseq X i ∧
        is_subsequence (maskSubseq X i) Y = true ∧
        init.length < (maskSubseq X i).length ∧
        (∀ j ∈ pre, is_subsequence (maskSubseq X j) Y = true →
          (maskSubseq X j).length < (maskSubseq X i).length) ∧
        (∀ j ∈ l, is_subsequence (maskSubseq X j) Y = true →
          (maskSubseq X j).length ≤ (maskSubseq X i).length)) := by
  intro l
  induction l with
  | nil =>
    intro init
    exact Or.inl ⟨rfl, by simp⟩
  | cons a l ih =>
    intro init
    by_cases hrep : is_subsequence (maskSubseq X a) Y = true ∧
        init.length < (maskSubseq X a).length
    · have hstep : bruteStep Y init (maskSubseq X a) = maskSubseq X a := by
        unfold bruteStep
        rw [if_pos hrep.1, if_pos hrep.2]
      rcases ih (maskSubseq X a) with ⟨heq, hbnd⟩ |
        ⟨pre, i, post, hl, hres, hpassi, hinit, hpre, hall⟩
      · refine Or.inr ⟨[], a, l, rfl, ?_, hrep.1, hrep.2, by simp, ?_⟩
        · simpa [hstep] using heq
        · intro j hj hp
          rcases List.mem_cons.mp hj with rfl | hj
          · exact le_refl _
          · exact hbnd j hj hp
      · refine Or.inr ⟨a :: pre, i, post, by rw [hl]; rfl, ?_,
          hpassi, lt_trans hrep.2 hinit, ?_, ?_⟩
        · simpa [hstep] using hres
        · intro j hj hp
          rcases List.mem_cons.mp hj with rfl | hj
          · exact hinit
          · exact hpre j hj hp
        · intro j hj hp
          rcases List.mem_cons.mp hj with rfl | hj
          · exact le_of_lt hinit
          · exact hall j hj hp
    · have hbound_a : is_subsequence (maskSubseq X a) Y = true →
          (maskSubseq X a).length ≤ init.length := by
        intro hp
        by_contra hgt
        exact hrep ⟨hp, by omega⟩
      have hstep : bruteStep Y init (maskSubseq X a) = init := by
        unfold bruteStep
        by_cases hp : is_subsequence (maskSubseq X a) Y = true
        · rw [if_pos hp, if_neg (by have := hbound_a hp; omega)]
        · rw [if_neg hp]
      rcases ih init with ⟨heq, hbnd⟩ |
        ⟨pre, i, post, hl, hres, hpassi, hinit, hpre, hall⟩
      · refine Or.inl ⟨by simpa [hstep] using heq, ?_⟩
        intro j hj hp
        rcases List.mem_cons.mp hj with rfl | hj
        · exact hbound_a hp
        · exact hbnd j hj hp
      · refine Or.inr ⟨a :: pre, i, post, by rw [hl]; rfl, ?_, hpassi, hinit, ?_, ?_⟩
        · simpa [hstep] using hres
        · intro j hj hp
          rcases List.mem_cons.mp hj with rfl | hj
          · exact lt_of_le_of_lt (hbound_a hp) hinit
          · exact hpre j hj hp
        · intro j hj hp
          rcases List.mem_cons.mp hj with rfl | hj
          · exact le_of_lt (lt_of_le_of_lt (hbound_a hp) hinit)
          · exact hall j hj hp

/-- Characterization of `lcs_brute_force`: its result is the candidate of
some mask `i < 2^m`, it passes the membership test, no passing candidate is
longer, and every passing candidate of an earlier mask is strictly shorter. -/
theorem lcs_brute_force_spec (X Y : List Char) :
    ∃ i, i < 2 ^ X.length ∧ lcs_brute_force X Y = maskSubseq X i ∧
      is_subsequence (maskSubseq X i) Y = true ∧
      (∀ j, j < 2 ^ X.length → is_subsequence (maskSubseq X j) Y = true →
        (maskSubseq X j).length ≤ (lcs_brute_force X Y).length) ∧
      (∀ j, j < i → is_subsequence (maskSubseq X j) Y = true →
        (maskSubseq X j).length < (lcs_brute_force X Y).length) := by
  rcases bruteFold_first_max X Y (List.range (2 ^ X.length)) [] with
    ⟨heq, hbnd⟩ | ⟨pre, i, post, hl, hres, hpassi, _, hpre, hall⟩
  · refine ⟨0, Nat.pos_pow_of_pos _ (by omega), ?_, ?_, ?_, ?_⟩
    · rw [lcs_brute_force, heq, maskSubseq_zero]
    · rw [maskSubseq_zero]
      cases Y <;> rfl
    · intro j hj hp
      have := hbnd j (List.mem_range.mpr hj) hp
      simp only [List.length_nil] at this
      omega
    · intro j hj
      omega
  · have hi : i = pre.length := by
      have hlen : pre.length < 2 ^ X.length := by
        have := congrArg List.length hl
        simp at this
        omega
      have hlen2 : pre.length < (List.range (2 ^ X.length)).length := by
        simpa using hlen
      have h1 : (List.range (2 ^ X.length))[pre.length] = pre.length :=
        List.getElem_range _ _
      simp only [hl] at h1
      rw [List.getElem_append_right (le_refl pre.length)] at h1
      simp only [Nat.sub_self, List.getElem_cons_zero] at h1
      exact h1
    have hpre_mem : ∀ j, j < i → j ∈ pre := by
      intro j hj
      have hple : pre.length ≤ 2 ^ X.length := by
        have := congrArg List.length hl
        simp at this
        omega
      have hpre_eq : List.range (min pre.length (2 ^ X.length)) = pre := by
        rw [← List.take_range, hl, List.take_left]
      have : pre = List.range pre.length := by
        rwa [Nat.min_eq_left hple, eq_comm] at hpre_eq
      rw [this]
      exact List.mem_range.mpr (hi ▸ hj)
    have hiota : i < 2 ^ X.length := by
      have : i ∈ List.range (2 ^ X.length) := by
        rw [hl]
        exact List.mem_append.mpr (Or.inr (List.mem_cons_self i post))
      exact List.mem_range.mp this
    refine ⟨i, hiota, hres, hpassi, ?_, ?_⟩
    · intro j hj hp
      rw [lcs_brute_force, hres]
      exact hall j (List.mem_range.mpr hj) hp
    · intro j hj hp
      rw [lcs_brute_force, hres]
      exact hpre j (hpre_mem j hj) hp

/-- The brute-force result attains the true LCS length. -/
theorem lcs_brute_force_isLCS (X Y : List Char) :
    CommonSubseq (lcs_brute_force X Y) X Y ∧
      IsLCSLength X Y (lcs_brute_force X Y).length := by
  obtain ⟨i, _, hres, hpass, hbnd, _⟩ := lcs_brute_force_spec X Y
  have hcs : CommonSubseq (lcs_brute_force X Y) X Y := by
    constructor
    · rw [hres]
      exact maskSubseq_sublist X i
    · rw [hres]
      exact (is_subsequence_iff Y (maskSubseq X i)).mp hpass
  refine ⟨hcs, ⟨lcs_brute_force X Y, hcs, rfl⟩, ?_⟩
  intro S hS
  obtain ⟨j, hjlt, hj⟩ := sublist_eq_maskSubseq hS.1
  have hp : is_subsequence (maskSubseq X j) Y = true := by
    rw [hj]
    exact (is_subsequence_iff Y S).mpr hS.2
  have := hbnd j hjlt hp
  rwa [hj] at this

/-! ### The head-recursion ghost `lcsR` computes a longest common subsequence -/

theorem lcsR_common : ∀ (N : Nat) (A B : List Char), A.length + B.length ≤ N →
    lcsR A B <+ A ∧ lcsR A B <+ B := by
  intro N
  induction N with
  | zero =>
    intro A B hN
    cases A with
    | nil => simp [lcsR]
    | cons a A => simp at hN
  | succ N ih =>
    intro A B hN
    cases A with
    | nil => simp [lcsR]
    | cons a A =>
      cases B with
      | nil => simp [lcsR]
      | cons b B =>
        by_cases hab : a = b
        · subst hab
          have hIH := ih A B (by simp only [List.length_cons] at hN; omega)
          simp only [lcsR, if_pos rfl]
          exact ⟨List.cons_sublist_cons.mpr hIH.1, List.cons_sublist_cons.mpr hIH.2⟩
        · have h1 := ih (a :: A) B (by simp only [List.length_cons] at hN ⊢; omega)
          have h2 := ih A (b :: B) (by simp only [List.length_cons] at hN ⊢; omega)
          simp only [lcsR, if_neg hab]
          constructor
          · split
            · exact h1.1
            · exact h2.1.cons a
          · split
            · exact h1.2.cons b
            · exact h2.2

theorem lcsR_maximal : ∀ (N : Nat) (A B S : List Char), A.length + B.length ≤ N →
    S <+ A → S <+ B → S.length ≤ (lcsR A B).length := by
  intro N
  induction N with
  | zero =>
    intro A B S hN hSA _
    cases A with
    | nil =>
      have := List.sublist_nil.mp hSA
      subst this
      simp
    | cons a A => simp at hN
  | succ N ih =>
    intro A B S hN hSA hSB
    cases A with
    | nil =>
      have := List.sublist_nil.mp hSA
      subst this
      simp
    | cons a A =>
      cases B with
      | nil =>
        have := List.sublist_nil.mp hSB
        subst this
        simp
      | cons b B =>
        have hNle : A.length + B.length ≤ N := by
          simp only [List.length_cons] at hN
          omega
        by_cases hab : a = b
        · subst hab
          have hunfold : lcsR (a :: A) (a :: B) = a :: lcsR A B := by
            simp [lcsR]
          rw [hunfold, List.length_cons]
          rcases List.sublist_cons_iff.mp hSA with h1 | ⟨r, rfl, h1⟩
          · rcases List.sublist_cons_iff.mp hSB with h2 | ⟨r, rfl, h2⟩
            · have := ih A B S hNle h1 h2
              omega
            · have hrA : r <+ A := (List.sublist_cons_self a r).trans h1
              have := ih A B r hNle hrA h2
              simp only [List.length_cons]
              omega
          · have hrB : r <+ B := List.cons_sublist_cons.mp hSB
            have := ih A B r hNle h1 hrB
            simp only [List.length_cons]
            omega
        · have hres : (lcsR (a :: A) B).length ≤ (lcsR (a :: A) (b :: B)).length ∧
              (lcsR A (b :: B)).length ≤ (lcsR (a :: A) (b :: B)).length := by
            simp only [lcsR, if_neg hab]
            split <;> constructor <;> omega
          rcases List.sublist_cons_iff.mp hSA with h1 | ⟨r, rfl, h1⟩
          · have h2 : S <+ b :: B := hSB
            have := ih A (b :: B) S
              (by simp only [List.length_cons] at hN ⊢; omega) h1 h2
            omega
          · rcases List.sublist_cons_iff.mp hSB with h2 | ⟨r', hr', _⟩
            · have := ih (a :: A) B (a :: r)
                (by simp only [List.length_cons] at hN ⊢; omega)
                (List.cons_sublist_cons.mpr h1) h2
              omega
            · injection hr' with hcontra _
              exact absurd hcontra hab

/-! ### `lcs_recursive` is `lcsR` on the reversed inputs -/

theorem lcs_recursive_reverse : ∀ (N : Nat) (P Q : List Char),
    P.length + Q.length ≤ N →
    lcs_recursive P.reverse Q.reverse = (lcsR P Q).reverse := by
  intro N
  induction N with
  | zero =>
    intro P Q hN
    cases P with
    | nil =>
      rw [lcs_recursive]
      simp [lcsR]
    | cons a P => simp at hN
  | succ N ih =>
    intro P Q hN
    cases P with
    | nil =>
      rw [lcs_recursive]
      simp [lcsR]
    | cons a P =>
      cases Q with
      | nil =>
        rw [lcs_recursive]
        simp [lcsR]
      | cons b Q =>
        simp only [List.reverse_cons]
        rw [lcs_recursive]
        rw [dif_neg (by simp)]
        simp only [List.getLastD_concat, List.dropLast_concat]
        by_cases hab : a = b
        · subst hab
          rw [if_pos rfl]
          have hIH := ih P Q (by simp only [List.length_cons] at hN; omega)
          rw [hIH]
          have hunfold : lcsR (a :: P) (a :: Q) = a :: lcsR P Q := by
            simp [lcsR]
          rw [hunfold, List.reverse_cons]
        · rw [if_neg hab]
          have h1 := ih (a :: P) Q (by simp only [List.length_cons] at hN ⊢; omega)
          have h2 := ih P (b :: Q) (by simp only [List.length_cons] at hN ⊢; omega)
          simp only [List.reverse_cons] at h1 h2
          rw [h1, h2]
          have hunfold : lcsR (a :: P) (b :: Q) =
              if (lcsR (a :: P) Q).length ≥ (lcsR P (b :: Q)).length then
                lcsR (a :: P) Q
              else lcsR P (b :: Q) := by
            simp only [lcsR, if_neg hab]
          rw [hunfold, apply_ite List.reverse, List.length_reverse,
            List.length_reverse]

theorem lcs_recursive_eq_lcsR (X Y : List Char) :
    lcs_recursive X Y = (lcsR X.reverse Y.reverse).reverse := by
  have h := lcs_recursive_reverse (X.reverse.length + Y.reverse.length)
    X.reverse Y.reverse (le_refl _)
  simpa using h

/-- Running `lcsR` on the reversed inputs and reversing back yields a longest
common subsequence of the original inputs. -/
theorem lcsR_rev_isLCS (A B : List Char) :
    CommonSubseq ((lcsR A.reverse B.reverse).reverse) A B ∧
      IsLCSLength A B (lcsR A.reverse B.reverse).length := by
  have hc := lcsR_common (A.reverse.length + B.reverse.length)
    A.reverse B.reverse (le_refl _)
  have hcs : CommonSubseq ((lcsR A.reverse B.reverse).reverse) A B := by
    constructor
    · rw [← List.reverse_sublist]
      simpa using hc.1
    · rw [← List.reverse_sublist]
      simpa using hc.2
  refine ⟨hcs, ⟨(lcsR A.reverse B.reverse).reverse, hcs, List.length_reverse _⟩, ?_⟩
  intro S hS
  have h1 : S.reverse <+ A.reverse := List.reverse_sublist.mpr hS.1
  have h2 : S.reverse <+ B.reverse := List.reverse_sublist.mpr hS.2
  have := lcsR_maximal (A.reverse.length + B.reverse.length)
    A.reverse B.reverse S.reverse (le_refl _) h1 h2
  simpa using this

theorem isLCSLength_unique {A B : List Char} {L1 L2 : Nat}
    (h1 : IsLCSLength A B L1) (h2 : IsLCSLength A B L2) : L1 = L2 := by
  obtain ⟨⟨R1, hR1, hl1⟩, hmax1⟩ := h1
  obtain ⟨⟨R2, hR2, hl2⟩, hmax2⟩ := h2
  have hb1 := hmax2 R1 hR1
  have hb2 := hmax1 R2 hR2
  omega

theorem lcs_recursive_isLCS (X Y : List Char) :
    CommonSubseq (lcs_recursive X Y) X Y ∧
      IsLCSLength X Y (lcs_recursive X Y).length := by
  rw [lcs_recursive_eq_lcsR]
  have h := lcsR_rev_isLCS X Y
  exact ⟨h.1, by rw [List.length_reverse]; exact h.2⟩

/-! ### `_lcs_memo`'s index recursion agrees with `lcs_recursive` on prefixes -/

theorem take_eq_concat (X : List Char) (i : Nat) (h0 : i ≠ 0) (hi : i ≤ X.length) :
    X.take i = X.take (i - 1) ++ [X.getD (i - 1) 'A'] := by
  obtain ⟨k, rfl⟩ : ∃ k, i = k + 1 := ⟨i - 1, by omega⟩
  simp only [Nat.add_sub_cancel]
  have hk : k < X.length := by omega
  rw [List.take_succ, List.getElem?_eq_getElem hk, Option.toList_some,
    List.getD_eq_getElem X 'A' hk]

theorem lcsIdx_eq_recursive : ∀ (N : Nat) (X Y : List Char) (i j : Nat),
    i + j ≤ N → i ≤ X.length → j ≤ Y.length →
    lcsIdx X Y i j = lcs_recursive (X.take i) (Y.take j) := by
  intro N
  induction N with
  | zero =>
    intro X Y i j hN hi hj
    have hi0 : i = 0 := by omega
    have hj0 : j = 0 := by omega
    subst hi0
    subst hj0
    rw [lcsIdx, dif_pos (Or.inl rfl), lcs_recursive, dif_pos (by simp)]
  | succ N ih =>
    intro X Y i j hN hi hj
    by_cases h0 : i = 0 ∨ j = 0
    · rw [lcsIdx, dif_pos h0, lcs_recursive,
        dif_pos (show (X.take i).length = 0 ∨ (Y.take j).length = 0 by
          rcases h0 with h | h <;> subst h <;> simp)]
    · push_neg at h0
      have htX := take_eq_concat X i h0.1 hi
      have htY := take_eq_concat Y j h0.2 hj
      rw [htX, htY, lcs_recursive, dif_neg (by simp)]
      simp only [List.getLastD_concat, List.dropLast_concat]
      rw [lcsIdx, dif_neg (by omega)]
      by_cases hc : X.getD (i - 1) 'A' = Y.getD (j - 1) 'A'
      · rw [if_pos hc, if_pos hc]
        congr 1
        exact ih X Y (i - 1) (j - 1) (by omega) (by omega) (by omega)
      · rw [if_neg hc, if_neg hc]
        have e1 : lcsIdx X Y i (j - 1) = lcs_recursive (X.take i) (Y.take (j - 1)) :=
          ih X Y i (j - 1) (by omega) hi (by omega)
        have e2 : lcsIdx X Y (i - 1) j = lcs_recursive (X.take (i - 1)) (Y.take j) :=
          ih X Y (i - 1) j (by omega) (by omega) hj
        rw [htX] at e1
        rw [htY] at e2
        rw [e1, e2]

/-- Cache invariant of `_lcs_memo`: every stored entry holds the value of the
pure recursion for its key. -/
def MemoOK (X Y : List Char) (memo : Memo) : Prop :=
  ∀ p v, memo.lookup p = some v → v = lcsIdx X Y p.1 p.2

theorem memoOK_nil (X Y : List Char) : MemoOK X Y [] := by
  intro p v h
  simp at h

theorem memoOK_cons {X Y : List Char} {memo : Memo} {i j : Nat} {v : List Char}
    (hmemo : MemoOK X Y memo) (hv : v = lcsIdx X Y i j) :
    MemoOK X Y (((i, j), v) :: memo) := by
  intro p w h
  rw [List.lookup_cons] at h
  cases hbeq : p == (i, j) with
  | true =>
    rw [hbeq] at h
    simp only [Option.some.injEq] at h
    have hp : p = (i, j) := eq_of_beq hbeq
    subst hp
    rw [← h]
    simpa using hv
  | false =>
    rw [hbeq] at h
    exact hmemo p w h

/-- Threading the cache through `_lcs_memo` neither corrupts it nor changes
the computed value: starting from a correct cache, the returned string is the
pure recursion's value and the returned cache is again correct. -/
theorem lcsMemo_spec : ∀ (N : Nat) (X Y : List Char) (i j : Nat) (memo : Memo),
    i + j ≤ N → MemoOK X Y memo →
    (lcsMemo X Y i j memo).1 = lcsIdx X Y i j ∧
      MemoOK X Y (lcsMemo X Y i j memo).2 := by
  intro N
  induction N with
  | zero =>
    intro X Y i j memo hN hmemo
    rw [lcsMemo]
    cases hl : memo.lookup (i, j) with
    | some v =>
      exact ⟨hmemo (i, j) v hl, hmemo⟩
    | none =>
      rw [dif_pos (by omega : i = 0 ∨ j = 0)]
      exact ⟨by rw [lcsIdx, dif_pos (by omega : i = 0 ∨ j = 0)], hmemo⟩
  | succ N ih =>
    intro X Y i j memo hN hmemo
    rw [lcsMemo]
    cases hl : memo.lookup (i, j) with
    | some v =>
      exact ⟨hmemo (i, j) v hl, hmemo⟩
    | none =>
      by_cases h0 : i = 0 ∨ j = 0
      · rw [dif_pos h0]
        exact ⟨by rw [lcsIdx, dif_pos h0], hmemo⟩
      · rw [dif_neg h0]
        by_cases hc : X.getD (i - 1) 'A' = Y.getD (j - 1) 'A'
        · rw [if_pos hc]
          have hrec := ih X Y (i - 1) (j - 1) memo (by omega) hmemo
          have hunfold : lcsIdx X Y i j =
              lcsIdx X Y (i - 1) (j - 1) ++ [X.getD (i - 1) 'A'] := by
            rw [lcsIdx, dif_neg h0, if_pos hc]
          have hval : (lcsMemo X Y (i - 1) (j - 1) memo).1 ++ [X.getD (i - 1) 'A'] =
              lcsIdx X Y i j := by
            rw [hrec.1, hunfold]
          exact ⟨hval, memoOK_cons hrec.2 hval⟩
        · rw [if_neg hc]
          have h1 := ih X Y i (j - 1) memo (by omega) hmemo
          have h2 := ih X Y (i - 1) j (lcsMemo X Y i (j - 1) memo).2
            (by omega) h1.2
          have hunfold : lcsIdx X Y i j =
              if (lcsIdx X Y i (j - 1)).length ≥ (lcsIdx X Y (i - 1) j).length then
                lcsIdx X Y i (j - 1)
              else lcsIdx X Y (i - 1) j := by
            rw [lcsIdx, dif_neg h0, if_neg hc]
          have hval : (if (lcsMemo X Y i (j - 1) memo).1.length ≥
                (lcsMemo X Y (i - 1) j (lcsMemo X Y i (j - 1) memo).2).1.length then
                (lcsMemo X Y i (j - 1) memo).1
              else (lcsMemo X Y (i - 1) j (lcsMemo X Y i (j - 1) memo).2).1) =
              lcsIdx X Y i j := by
            rw [h1.1, h2.1, hunfold]
          exact ⟨hval, memoOK_cons h2.2 hval⟩

theorem lcs_memoized_eq_recursive_helper (X Y : List Char) :
    lcs_memoized X Y = lcs_recursive X Y := by
  have h := (lcsMemo_spec (X.length + Y.length) X Y X.length Y.length []
    (le_refl _) (memoOK_nil X Y)).1
  rw [lcs_memoized, h,
    lcsIdx_eq_recursive (X.length + Y.length) X Y X.length Y.length
      (le_refl _) (le_refl _) (le_refl _),
    List.take_length, List.take_length]

/-! ### The length table equals the LCS length of the prefixes -/

theorem lcsTable_eq_lcsR : ∀ (N : Nat) (X Y : List Char) (i j : Nat),
    i + j ≤ N → i ≤ X.length → j ≤ Y.length →
    lcsTable X Y i j = (lcsR (X.take i).reverse (Y.take j).reverse).length := by
  intro N
  induction N with
  | zero =>
    intro X Y i j hN hi hj
    have hi0 : i = 0 := by omega
    have hj0 : j = 0 := by omega
    subst hi0
    subst hj0
    rw [lcsTable, dif_pos (Or.inl rfl)]
    simp [lcsR]
  | succ N ih =>
    intro X Y i j hN hi hj
    by_cases h0 : i = 0 ∨ j = 0
    · rw [lcsTable, dif_pos h0]
      rcases h0 with h | h
      · subst h
        simp [lcsR]
      · subst h
        simp only [List.take_zero, List.reverse_nil]
        cases hP : (List.take i X).reverse with
        | nil => simp [lcsR]
        | cons p P => simp [lcsR]
    · push_neg at h0
      have htX := take_eq_concat X i h0.1 hi
      have htY := take_eq_concat Y j h0.2 hj
      rw [htX, htY, List.reverse_append, List.reverse_append]
      simp only [List.reverse_cons, List.reverse_nil, List.nil_append,
        List.singleton_append]
      rw [lcsTable, dif_neg (by omega)]
      by_cases hc : X.getD (i - 1) 'A' = Y.getD (j - 1) 'A'
      · rw [if_pos hc]
        have hunfold : lcsR (X.getD (i - 1) 'A' :: (X.take (i - 1)).reverse)
            (Y.getD (j - 1) 'A' :: (Y.take (j - 1)).reverse) =
            X.getD (i - 1) 'A' ::
              lcsR (X.take (i - 1)).reverse (Y.take (j - 1)).reverse := by
          simp only [lcsR]
          rw [if_pos hc]
        rw [hunfold, List.length_cons,
          ih X Y (i - 1) (j - 1) (by omega) (by omega) (by omega)]
      · rw [if_neg hc]
        have hunfold : lcsR (X.getD (i - 1) 'A' :: (X.take (i - 1)).reverse)
            (Y.getD (j - 1) 'A' :: (Y.take (j - 1)).reverse) =
            if (lcsR (X.getD (i - 1) 'A' :: (X.take (i - 1)).reverse)
                  (Y.take (j - 1)).reverse).length ≥
                (lcsR (X.take (i - 1)).reverse
                  (Y.getD (j - 1) 'A' :: (Y.take (j - 1)).reverse)).length then
              lcsR (X.getD (i - 1) 'A' :: (X.take (i - 1)).reverse)
                (Y.take (j - 1)).reverse
            else
              lcsR (X.take (i - 1)).reverse
                (Y.getD (j - 1) 'A' :: (Y.take (j - 1)).reverse) := by
          simp only [lcsR]
          rw [if_neg hc]
        rw [hunfold]
        have e1 : (lcsR (X.getD (i - 1) 'A' :: (X.take (i - 1)).reverse)
            (Y.take (j - 1)).reverse).length = lcsTable X Y i (j - 1) := by
          have hrw := ih X Y i (j - 1) (by omega) hi (by omega)
          rw [hrw, htX, List.reverse_append]
          simp
        have e2 : (lcsR (X.take (i - 1)).reverse
            (Y.getD (j - 1) 'A' :: (Y.take (j - 1)).reverse)).length =
            lcsTable X Y (i - 1) j := by
          have hrw := ih X Y (i - 1) j (by omega) (by omega) hj
          rw [hrw, htY, List.reverse_append]
          simp
        rw [apply_ite List.length, e1, e2]
        rcases Nat.lt_or_ge (lcsTable X Y i (j - 1)) (lcsTable X Y (i - 1) j) with
          hlt | hge
        · rw [if_neg (by omega)]
          omega
        · rw [if_pos (by omega)]
          omega

theorem lcsTable_isLCSLength (X Y : List Char) (i j : Nat)
    (hi : i ≤ X.length) (hj : j ≤ Y.length) :
    IsLCSLength (X.take i) (Y.take j) (lcsTable X Y i j) := by
  rw [lcsTable_eq_lcsR (i + j) X Y i j (le_refl _) hi hj]
  exact (lcsR_rev_isLCS (X.take i) (Y.take j)).2

/-! ### The backtracking walk reconstructs an optimal string -/

theorem backtrackLCS_spec : ∀ (N : Nat) (X Y : List Char) (i j : Nat),
    i + j ≤ N → i ≤ X.length → j ≤ Y.length → ∀ acc,
    ∃ s, backtrackLCS X Y i j acc = s ++ acc ∧ s <+ X.take i ∧ s <+ Y.take j ∧
      s.length = lcsTable X Y i j := by
  intro N
  induction N with
  | zero =>
    intro X Y i j hN hi hj acc
    have hi0 : i = 0 := by omega
    have hj0 : j = 0 := by omega
    subst hi0
    subst hj0
    refine ⟨[], ?_, by simp, by simp, ?_⟩
    · rw [backtrackLCS, dif_pos (Or.inl rfl)]
      rfl
    · rw [lcsTable, dif_pos (Or.inl rfl)]
      rfl
  | succ N ih =>
    intro X Y i j hN hi hj acc
    by_cases h0 : i = 0 ∨ j = 0
    · refine ⟨[], ?_, by simp, by simp, ?_⟩
      · rw [backtrackLCS, dif_pos h0]
        rfl
      · rw [lcsTable, dif_pos h0]
        rfl
    · push_neg at h0
      have htX := take_eq_concat X i h0.1 hi
      have htY := take_eq_concat Y j h0.2 hj
      by_cases hc : X.getD (i - 1) 'A' = Y.getD (j - 1) 'A'
      · obtain ⟨s, hs1, hs2, hs3, hs4⟩ := ih X Y (i - 1) (j - 1)
          (by omega) (by omega) (by omega) (X.getD (i - 1) 'A' :: acc)
        refine ⟨s ++ [X.getD (i - 1) 'A'], ?_, ?_, ?_, ?_⟩
        · rw [backtrackLCS, dif_neg (by omega), if_pos hc, hs1]
          simp
        · rw [htX]
          exact hs2.append (List.Sublist.refl _)
        · rw [htY]
          refine hs3.append ?_
          rw [hc]
        · rw [lcsTable, dif_neg (by omega), if_pos hc]
          simp [hs4]
      · rcases Nat.lt_or_ge (lcsTable X Y i (j - 1)) (lcsTable X Y (i - 1) j) with
          hlt | hge
        · obtain ⟨s, hs1, hs2, hs3, hs4⟩ := ih X Y (i - 1) j
            (by omega) (by omega) hj acc
          refine ⟨s, ?_, ?_, hs3, ?_⟩
          · rw [backtrackLCS, dif_neg (by omega), if_neg hc, if_pos (by omega), hs1]
          · rw [htX]
            exact hs2.trans (List.sublist_append_left _ _)
          · rw [lcsTable, dif_neg (by omega), if_neg hc]
            omega
        · obtain ⟨s, hs1, hs2, hs3, hs4⟩ := ih X Y i (j - 1)
            (by omega) hi (by omega) acc
          refine ⟨s, ?_, hs2, ?_, ?_⟩
          · rw [backtrackLCS, dif_neg (by omega), if_neg hc, if_neg (by omega), hs1]
          · rw [htY]
            exact hs3.trans (List.sublist_append_left _ _)
          · rw [lcsTable, dif_neg (by omega), if_neg hc]
            omega

theorem lcs_bottom_up_isLCS (X Y : List Char) :
    CommonSubseq (lcs_bottom_up X Y) X Y ∧
      IsLCSLength X Y (lcs_bottom_up X Y).length := by
  obtain ⟨s, hs1, hs2, hs3, hs4⟩ := backtrackLCS_spec (X.length + Y.length) X Y
    X.length Y.length (le_refl _) (le_refl _) (le_refl _) []
  rw [List.take_length] at hs2
  rw [List.take_length] at hs3
  have hres : lcs_bottom_up X Y = s := by
    rw [lcs_bottom_up, hs1, List.append_nil]
  have htab := lcsTable_isLCSLength X Y X.length Y.length (le_refl _) (le_refl _)
  rw [List.take_length, List.take_length] at htab
  rw [hres]
  exact ⟨⟨hs2, hs3⟩, by rw [hs4]; exact htab⟩

/-- All four strategies return a longest common subsequence. -/
theorem all_strategies_isLCS (X Y : List Char) :
    (CommonSubseq (lcs_brute_force X Y) X Y ∧
      IsLCSLength X Y (lcs_brute_force X Y).length) ∧
    (CommonSubseq (lcs_recursive X Y) X Y ∧
      IsLCSLength X Y (lcs_recursive X Y).length) ∧
    (CommonSubseq (lcs_memoized X Y) X Y ∧
      IsLCSLength X Y (lcs_memoized X Y).length) ∧
    (CommonSubseq (lcs_bottom_up X Y) X Y ∧
      IsLCSLength X Y (lcs_bottom_up X Y).length) := by
  refine ⟨lcs_brute_force_isLCS X Y, lcs_recursive_isLCS X Y, ?_,
    lcs_bottom_up_isLCS X Y⟩
  rw [lcs_memoized_eq_recursive_helper]
  exact lcs_recursive_isLCS X Y

/-- Appending one character to the first input moves the LCS length up by at
most one and never down. -/
theorem isLCSLength_append_char {A B : List Char} {c : Char} {L L' : Nat}
    (h : IsLCSLength A B L) (h' : IsLCSLength (A ++ [c]) B L') :
    L ≤ L' ∧ L' ≤ L + 1 := by
  obtain ⟨⟨R, hR, hRl⟩, hmax⟩ := h
  obtain ⟨⟨R', hR', hRl'⟩, hmax'⟩ := h'
  constructor
  · have hcs : CommonSubseq R (A ++ [c]) B :=
      ⟨hR.1.trans (List.sublist_append_left _ _), hR.2⟩
    have := hmax' R hcs
    omega
  · rcases List.sublist_append_iff.mp hR'.1 with ⟨R1, R2, hsplit, hR1, hR2⟩
    have hR1B : R1 <+ B := by
      have hsub : R1 <+ R' := hsplit ▸ List.sublist_append_left R1 R2
      exact hsub.trans hR'.2
    have hlen2 : R2.length ≤ 1 := by
      have := hR2.length_le
      simpa using this
    have hb := hmax R1 ⟨hR1, hR1B⟩
    have hl : R'.length = R1.length + R2.length := by
      rw [hsplit, List.length_append]
    omega

/-! ### Claim theorems -/

/-- C1: for every input pair (A, B), all four strategies return a result
whose length is identical and equal to the true LCS length of A and B (the
length of a longest common subsequence). -/
theorem lcs_length_agreement (A B : List Char) :
    IsLCSLength A B (lcs_brute_force A B).length ∧
    (lcs_recursive A B).length = (lcs_brute_force A B).length ∧
    (lcs_memoized A B).length = (lcs_brute_force A B).length ∧
    (lcs_bottom_up A B).length = (lcs_brute_force A B).length := by
  obtain ⟨h1, h2, h3, h4⟩ := all_strategies_isLCS A B
  exact ⟨h1.2, isLCSLength_unique h2.2 h1.2, isLCSLength_unique h3.2 h1.2,
    isLCSLength_unique h4.2 h1.2⟩

/-- C2: for every strategy and input pair (A, B), the returned string passes
`_is_subsequence` against A and against B — it is a subsequence of both, in
the relative-order sense. -/
theorem lcs_results_are_subsequences (A B : List Char) :
    (is_subsequence (lcs_brute_force A B) A = true ∧
      is_subsequence (lcs_brute_force A B) B = true) ∧
    (is_subsequence (lcs_recursive A B) A = true ∧
      is_subsequence (lcs_recursive A B) B = true) ∧
    (is_subsequence (lcs_memoized A B) A = true ∧
      is_subsequence (lcs_memoized A B) B = true) ∧
    (is_subsequence (lcs_bottom_up A B) A = true ∧
      is_subsequence (lcs_bottom_up A B) B = true) := by
  obtain ⟨h1, h2, h3, h4⟩ := all_strategies_isLCS A B
  exact ⟨⟨(is_subsequence_iff A _).mpr h1.1.1, (is_subsequence_iff B _).mpr h1.1.2⟩,
    ⟨(is_subsequence_iff A _).mpr h2.1.1, (is_subsequence_iff B _).mpr h2.1.2⟩,
    ⟨(is_subsequence_iff A _).mpr h3.1.1, (is_subsequence_iff B _).mpr h3.1.2⟩,
    ⟨(is_subsequence_iff A _).mpr h4.1.1, (is_subsequence_iff B _).mpr h4.1.2⟩⟩

/-- C4: `lcs_memoized` returns literally the same string as `lcs_recursive`
on every input pair — same recurrence, same tie-break (equal branch lengths
keep the branch that drops the last character of Y), and caching does not
change the computed value. -/
theorem memoized_eq_recursive (X Y : List Char) :
    lcs_memoized X Y = lcs_recursive X Y :=
  lcs_memoized_eq_recursive_helper X Y

/-- C7: `_is_subsequence(sub, main)` returns true iff `sub` is a subsequence
of `main` (same relative order, not necessarily contiguous); in particular it
accepts the empty `sub` against any `main`. It is a total function, so it
never errors on finite inputs. -/
theorem is_subsequence_correct (sub main : List Char) :
    (is_subsequence sub main = true ↔ sub <+ main) ∧
    is_subsequence [] main = true := by
  refine ⟨is_subsequence_iff main sub, ?_⟩
  cases main <;> rfl

/-- C9: for every strategy, appending one character to A keeps the returned
length or increases it by exactly one, for fixed B. -/
theorem append_monotonicity (A B : List Char) (ch : Char) :
    ((lcs_brute_force (A ++ [ch]) B).length = (lcs_brute_force A B).length ∨
      (lcs_brute_force (A ++ [ch]) B).length = (lcs_brute_force A B).length + 1) ∧
    ((lcs_recursive (A ++ [ch]) B).length = (lcs_recursive A B).length ∨
      (lcs_recursive (A ++ [ch]) B).length = (lcs_recursive A B).length + 1) ∧
    ((lcs_memoized (A ++ [ch]) B).length = (lcs_memoized A B).length ∨
      (lcs_memoized (A ++ [ch]) B).length = (lcs_memoized A B).length + 1) ∧
    ((lcs_bottom_up (A ++ [ch]) B).length = (lcs_bottom_up A B).length ∨
      (lcs_bottom_up (A ++ [ch]) B).length = (lcs_bottom_up A B).length + 1) := by
  obtain ⟨h1, h2, h3, h4⟩ := all_strategies_isLCS A B
  obtain ⟨g1, g2, g3, g4⟩ := all_strategies_isLCS (A ++ [ch]) B
  have b1 := isLCSLength_append_char h1.2 g1.2
  have b2 := isLCSLength_append_char h2.2 g2.2
  have b3 := isLCSLength_append_char h3.2 g3.2
  have b4 := isLCSLength_append_char h4.2 g4.2
  exact ⟨by omega, by omega, by omega, by omega⟩

/-- C10: every strategy returns its input unchanged when both inputs are the
same string A — not merely a string of the right length. -/
theorem lcs_self_identity (A : List Char) :
    lcs_brute_force A A = A ∧ lcs_recursive A A = A ∧
    lcs_memoized A A = A ∧ lcs_bottom_up A A = A := by
  have hLCS : IsLCSLength A A A.length :=
    ⟨⟨A, ⟨List.Sublist.refl A, List.Sublist.refl A⟩, rfl⟩,
      fun S hS => hS.1.length_le⟩
  obtain ⟨h1, h2, h3, h4⟩ := all_strategies_isLCS A A
  exact ⟨h1.1.1.eq_of_length (isLCSLength_unique h1.2 hLCS),
    h2.1.1.eq_of_length (isLCSLength_unique h2.2 hLCS),
    h3.1.1.eq_of_length (isLCSLength_unique h3.2 hLCS),
    h4.1.1.eq_of_length (isLCSLength_unique h4.2 hLCS)⟩

/-- C5: after phase 1 of `lcs_bottom_up`, the table satisfies the base rows
`c[0][j] = c[i][0] = 0` and the match/max recurrence, and `c[i][j]` equals the
LCS length of the length-i prefix of X and the length-j prefix of Y. -/
theorem lcsTable_invariant (X Y : List Char) (i j : Nat)
    (hi : i ≤ X.length) (hj : j ≤ Y.length) :
    lcsTable X Y 0 j = 0 ∧ lcsTable X Y i 0 = 0 ∧
    (1 ≤ i → 1 ≤ j → lcsTable X Y i j =
      if X.getD (i - 1) 'A' = Y.getD (j - 1) 'A' then
        lcsTable X Y (i - 1) (j - 1) + 1
      else max (lcsTable X Y (i - 1) j) (lcsTable X Y i (j - 1))) ∧
    IsLCSLength (X.take i) (Y.take j) (lcsTable X Y i j) := by
  refine ⟨?_, ?_, ?_, lcsTable_isLCSLength X Y i j hi hj⟩
  · rw [lcsTable, dif_pos (Or.inl rfl)]
  · rw [lcsTable, dif_pos (Or.inr rfl)]
  · intro h1 h2
    rw [lcsTable, dif_neg (by omega)]

/-- Witness for C5 at X = "A", Y = "A", i = j = 1. -/
theorem lcsTable_invariant_witness :
    (1 ≤ (['A'] : List Char).length ∧ 1 ≤ (['A'] : List Char).length) ∧
    (lcsTable ['A'] ['A'] 0 1 = 0 ∧ lcsTable ['A'] ['A'] 1 0 = 0 ∧
    (1 ≤ 1 → 1 ≤ 1 → lcsTable ['A'] ['A'] 1 1 =
      if (['A'] : List Char).getD 0 'A' = (['A'] : List Char).getD 0 'A' then
        lcsTable ['A'] ['A'] 0 0 + 1
      else max (lcsTable ['A'] ['A'] 0 1) (lcsTable ['A'] ['A'] 1 0)) ∧
    IsLCSLength ((['A'] : List Char).take 1) ((['A'] : List Char).take 1)
      (lcsTable ['A'] ['A'] 1 1)) :=
  ⟨⟨by simp, by simp⟩, lcsTable_invariant ['A'] ['A'] 1 1 (by simp) (by simp)⟩

/-- C6: the backtracking loop of `lcs_bottom_up` starting at `(m, n)` takes
exactly the specified step at every cell: on a character match it prepends
that character and moves diagonally; otherwise it moves to `(i-1, j)` exactly
when `c[i-1][j] > c[i][j-1]` strictly, and to `(i, j-1)` on ties; it stops at
`i = 0` or `j = 0`, returning the accumulated string. -/
theorem backtracking_steps (X Y : List Char) (i j : Nat) (acc : List Char)
    (hi : 1 ≤ i) (hj : 1 ≤ j) :
    (X.getD (i - 1) 'A' = Y.getD (j - 1) 'A' →
      backtrackLCS X Y i j acc =
        backtrackLCS X Y (i - 1) (j - 1) (X.getD (i - 1) 'A' :: acc)) ∧
    (X.getD (i - 1) 'A' ≠ Y.getD (j - 1) 'A' →
      (lcsTable X Y (i - 1) j > lcsTable X Y i (j - 1) →
        backtrackLCS X Y i j acc = backtrackLCS X Y (i - 1) j acc) ∧
      (¬ lcsTable X Y (i - 1) j > lcsTable X Y i (j - 1) →
        backtrackLCS X Y i j acc = backtrackLCS X Y i (j - 1) acc)) ∧
    (∀ j' acc', backtrackLCS X Y 0 j' acc' = acc') ∧
    (∀ i' acc', backtrackLCS X Y i' 0 acc' = acc') ∧
    lcs_bottom_up X Y = backtrackLCS X Y X.length Y.length [] := by
  refine ⟨?_, ?_, ?_, ?_, rfl⟩
  · intro hc
    rw [backtrackLCS, dif_neg (by omega), if_pos hc]
  · intro hc
    constructor
    · intro hgt
      rw [backtrackLCS, dif_neg (by omega), if_neg hc, if_pos hgt]
    · intro hgt
      rw [backtrackLCS, dif_neg (by omega), if_neg hc, if_neg hgt]
  · intro j' acc'
    rw [backtrackLCS, dif_pos (Or.inl rfl)]
  · intro i' acc'
    rw [backtrackLCS, dif_pos (Or.inr rfl)]

/-- Witness for C6 at X = "A", Y = "B", i = j = 1, empty accumulator. -/
theorem backtracking_steps_witness :
    ((1 : Nat) ≤ 1 ∧ (1 : Nat) ≤ 1) ∧
    (((['A'] : List Char).getD 0 'A' = (['B'] : List Char).getD 0 'A' →
      backtrackLCS ['A'] ['B'] 1 1 [] =
        backtrackLCS ['A'] ['B'] 0 0 ((['A'] : List Char).getD 0 'A' :: [])) ∧
    ((['A'] : List Char).getD 0 'A' ≠ (['B'] : List Char).getD 0 'A' →
      (lcsTable ['A'] ['B'] 0 1 > lcsTable ['A'] ['B'] 1 0 →
        backtrackLCS ['A'] ['B'] 1 1 [] = backtrackLCS ['A'] ['B'] 0 1 []) ∧
      (¬ lcsTable ['A'] ['B'] 0 1 > lcsTable ['A'] ['B'] 1 0 →
        backtrackLCS ['A'] ['B'] 1 1 [] = backtrackLCS ['A'] ['B'] 1 0 [])) ∧
    (∀ j' acc', backtrackLCS ['A'] ['B'] 0 j' acc' = acc') ∧
    (∀ i' acc', backtrackLCS ['A'] ['B'] i' 0 acc' = acc') ∧
    lcs_bottom_up ['A'] ['B'] = backtrackLCS ['A'] ['B'] 1 1 []) :=
  ⟨⟨le_refl 1, le_refl 1⟩, backtracking_steps ['A'] ['B'] 1 1 [] (le_refl 1) (le_refl 1)⟩

/-- C8: `lcs_brute_force` scans all 2^m bitmask candidates of X in increasing
mask order, keeps the longest one passing the subsequence test against Y
(first such mask on ties), and returns the empty string when X is empty or no
passing candidate has positive length. -/
theorem brute_force_characterization (X Y : List Char) :
    (∃ i, i < 2 ^ X.length ∧ lcs_brute_force X Y = maskSubseq X i ∧
      is_subsequence (maskSubseq X i) Y = true ∧
      (∀ j, j < 2 ^ X.length → is_subsequence (maskSubseq X j) Y = true →
        (maskSubseq X j).length ≤ (lcs_brute_force X Y).length) ∧
      (∀ j, j < i → is_subsequence (maskSubseq X j) Y = true →
        (maskSubseq X j).length < (lcs_brute_force X Y).length)) ∧
    (X = [] → lcs_brute_force X Y = []) ∧
    ((∀ i, i < 2 ^ X.length → is_subsequence (maskSubseq X i) Y = true →
      (maskSubseq X i).length = 0) → lcs_brute_force X Y = []) := by
  refine ⟨lcs_brute_force_spec X Y, ?_, ?_⟩
  · intro hX
    subst hX
    obtain ⟨i, _, hres, _⟩ := lcs_brute_force_spec ([] : List Char) Y
    rw [hres]
    cases i <;> rfl
  · intro hall
    obtain ⟨i, hlt, hres, hpass, _, _⟩ := lcs_brute_force_spec X Y
    have hzero := hall i hlt hpass
    rw [hres]
    exact List.length_eq_zero.mp hzero

/-- C3 counterexample: in the top-level call `lcs_memoized("A", "B")`, the
base-case subproblem `(1, 0)` is computed (the recursion on `(1, 1)` invokes
it first, with the still-empty cache, and it returns `""`), yet it stores
nothing — and at the end of the top-level call the memo holds only `(1, 1)`,
so `(1, 0)` has no entry. -/
theorem memo_base_case_not_cached_cex :
    lcsMemo ['A'] ['B'] 1 0 [] = ([], []) ∧
    (lcsMemo ['A'] ['B'] 1 1 []).2.lookup (1, 0) = none := by
  have h10 : lcsMemo ['A'] ['B'] 1 0 [] = ([], []) := by
    rw [lcsMemo]
    rfl
  have h01 : lcsMemo ['A'] ['B'] 0 1 [] = ([], []) := by
    rw [lcsMemo]
    rfl
  have h11 : lcsMemo ['A'] ['B'] 1 1 [] = ([], [((1, 1), [])]) := by
    rw [lcsMemo]
    show (if h : (1 : Nat) = 0 ∨ (1 : Nat) = 0 then (([] : List Char), ([] : Memo))
      else _) = _
    rw [dif_neg (by omega)]
    rw [if_neg (by decide)]
    rw [h10]
    simp only [Nat.sub_self]
    rw [h01]
    rfl
  refine ⟨h10, ?_⟩
  rw [h11]
  rfl

/-- C3 (amended): every non-base subproblem (i ≥ 1 and j ≥ 1) computed by
`_lcs_memo` has an entry in the cache when it returns, holding exactly the
returned result; base-case subproblems (i = 0 or j = 0) return `""` without
storing anything. -/
theorem memo_nonbase_subproblem_cached (X Y : List Char) (i j : Nat)
    (memo : Memo) (hi : i ≠ 0) (hj : j ≠ 0) :
    (lcsMemo X Y i j memo).2.lookup (i, j) = some (lcsMemo X Y i j memo).1 := by
  rw [lcsMemo]
  cases hl : memo.lookup (i, j) with
  | some v => exact hl
  | none =>
    rw [dif_neg (by omega)]
    by_cases hc : X.getD (i - 1) 'A' = Y.getD (j - 1) 'A'
    · rw [if_pos hc]
      exact List.lookup_cons_self
    · rw [if_neg hc]
      exact List.lookup_cons_self

/-- Witness for the amended C3 at X = "A", Y = "A", i = j = 1, empty cache. -/
theorem memo_nonbase_subproblem_cached_witness :
    ((1 : Nat) ≠ 0 ∧ (1 : Nat) ≠ 0) ∧
    (lcsMemo ['A'] ['A'] 1 1 []).2.lookup (1, 1) =
      some (lcsMemo ['A'] ['A'] 1 1 []).1 :=
  ⟨⟨one_ne_zero, one_ne_zero⟩,
    memo_nonbase_subproblem_cached ['A'] ['A'] 1 1 [] one_ne_zero one_ne_zero⟩
